import Mathlib

/-!
# SeqLock: a verification development

Shallow embedding of `seqlock.hpp` (`lock::SPSeqLock`, `lock::MPSeqLock`).

* `size_t` is a 64-bit unsigned integer: counters are naturals reduced modulo `2 ^ 64`.
* Atomic accesses of `seq_` are single steps of a sequentially consistent interleaving.
* The sequential functions (`SPSeqLock.load`, `SPSeqLock.store`, `MPSeqLock.store`, ...) run one
  call to completion with no other thread; loops that may spin take a fuel argument and answer
  `none` when the fuel is used up.
* The machines `SPState` and `MPState` interleave the statements of several threads.
-/

namespace lock

/-! ## Layout -/

/-- Length of `padding_`:
`Cacheline_Size - (sizeof(value_) + sizeof(seq_)) % Cacheline_Size`. -/
def paddingLen (sizeofValue sizeofSeq cachelineSize : Nat) : Nat :=
  cachelineSize - (sizeofValue + sizeofSeq) % cachelineSize

/-- Bytes taken by the three members `value_`, `seq_`, `padding_` together. -/
def membersLen (sizeofValue sizeofSeq cachelineSize : Nat) : Nat :=
  sizeofValue + sizeofSeq + paddingLen sizeofValue sizeofSeq cachelineSize

/-- Least multiple of `c` that is at least `x`. -/
def roundUp (x c : Nat) : Nat :=
  (x + c - 1) / c * c

/-! ## Sequential semantics -/

/-- Loop condition of `load()`: `(seq0 != seq1) || (seq0 & 1)`; `true` means retry. -/
def loadRetry (seq0 seq1 : Nat) : Bool :=
  (seq0 != seq1) || (seq0 &&& 1 != 0)

/-- One pass through the body of the `do ... while` loop of `load()`, given the two readings of
`seq_` and the copy of `value_` taken between them: `some ret` when the loop exits and `ret` is
returned, `none` when the loop goes round again. -/
def loadIter {T : Type} (seq0 seq1 : Nat) (ret : T) : Option T :=
  if loadRetry seq0 seq1 then none else some ret

/-- Data members of `SPSeqLock<T>` (the padding carries no information). -/
structure SPSeqLock (T : Type) where
  value_ : T
  seq_ : Nat

/-- Constructor `SPSeqLock() : seq_(0) {}`. Only `seq_` is initialised; `value_` is
default-initialised, so it holds what `T`'s default constructor builds when `T` has one and
whatever the storage held when `T` is a scalar. That content is the argument `dflt`. -/
def SPSeqLock.new {T : Type} (dflt : T) : SPSeqLock T :=
  { value_ := dflt, seq_ := 0 }

/-- The function `SPSeqLock::load` run alone; `fuel` bounds the number of loop iterations. -/
def SPSeqLock.load {T : Type} (c : SPSeqLock T) : Nat → Option T
  | 0 => none
  | fuel + 1 =>
    let seq0 := c.seq_
    let ret := c.value_
    let seq1 := c.seq_
    match loadIter seq0 seq1 ret with
    | some r => some r
    | none => c.load fuel

/-- The function `SPSeqLock::store` run alone. -/
def SPSeqLock.store {T : Type} (c : SPSeqLock T) (input : T) : SPSeqLock T :=
  let seq0 := c.seq_
  let c1 : SPSeqLock T := { c with seq_ := (seq0 + 1) % 2 ^ 64 }
  let c2 : SPSeqLock T := { c1 with value_ := input }
  { c2 with seq_ := (seq0 + 2) % 2 ^ 64 }

/-- Data members of `MPSeqLock<T>`. -/
structure MPSeqLock (T : Type) where
  value_ : T
  seq_ : Nat

/-- Constructor `MPSeqLock() : seq_(0) {}`; see `SPSeqLock.new`. -/
def MPSeqLock.new {T : Type} (dflt : T) : MPSeqLock T :=
  { value_ := dflt, seq_ := 0 }

/-- The function `MPSeqLock::load` run alone (same text as `SPSeqLock::load`). -/
def MPSeqLock.load {T : Type} (c : MPSeqLock T) : Nat → Option T
  | 0 => none
  | fuel + 1 =>
    let seq0 := c.seq_
    let ret := c.value_
    let seq1 := c.seq_
    match loadIter seq0 seq1 ret with
    | some r => some r
    | none => c.load fuel

/-- The call `seq_.compare_exchange_weak(expected, desired)` on a counter holding `cur`.
Result: (returned flag, new counter, new `expected`). It may fail spuriously (`spurious`);
every failure writes the counter's value into `expected`. -/
def compare_exchange_weak (cur expected desired : Nat) (spurious : Bool) : Bool × Nat × Nat :=
  if cur = expected ∧ spurious = false then (true, desired, expected) else (false, cur, cur)

/-- One evaluation of the condition of
`while((seq0 & 1) || (!seq_.compare_exchange_weak(seq0, seq0 + 1))) {}` in `MPSeqLock::store`.
Result: (loop again?, new counter, new `seq0`). The `||` short-circuits: with `seq0` odd the
compare-and-swap is not evaluated. -/
def arbitrationIter (cur seq0 : Nat) (spurious : Bool) : Bool × Nat × Nat :=
  if seq0 &&& 1 != 0 then (true, cur, seq0)
  else
    match compare_exchange_weak cur seq0 ((seq0 + 1) % 2 ^ 64) spurious with
    | (ok, cur1, seq01) => (!ok, cur1, seq01)

/-- The arbitration loop of `MPSeqLock::store` run alone: `some (counter, seq0)` when the loop
exits within `fuel` evaluations of its condition. `spur k` tells whether the `k`-th evaluation
suffers a spurious failure. -/
def arbitrationLoop (cur seq0 : Nat) (spur : Nat → Bool) : Nat → Option (Nat × Nat)
  | 0 => none
  | fuel + 1 =>
    match arbitrationIter cur seq0 (spur 0) with
    | (true, cur1, seq01) => arbitrationLoop cur1 seq01 (fun k => spur (k + 1)) fuel
    | (false, cur1, seq01) => some (cur1, seq01)

/-- The function `MPSeqLock::store` run alone: `none` when the arbitration loop has not exited
after `fuel` evaluations of its condition. -/
def MPSeqLock.store {T : Type} (c : MPSeqLock T) (input : T) (spur : Nat → Bool) (fuel : Nat) :
    Option (MPSeqLock T) :=
  let seq0 := c.seq_
  let c1 : MPSeqLock T := { c with seq_ := (seq0 + 1) % 2 ^ 64 }
  match arbitrationLoop c1.seq_ seq0 spur fuel with
  | none => none
  | some (cur, seq01) =>
    let c2 : MPSeqLock T := { c1 with seq_ := cur }
    let c3 : MPSeqLock T := { c2 with value_ := input }
    some { c3 with seq_ := (seq01 + 2) % 2 ^ 64 }

/-! ## Interleaving semantics of `SPSeqLock` -/

/-- Payload of `n` machine words; `value_ = input` and `ret = value_` copy it one word per
step, in ascending order. -/
abbrev Payload (n : Nat) (W : Type) : Type := Fin n → W

/-- Program points of the single writer inside `SPSeqLock::store(input)`. -/
inductive Writer (n : Nat) (W : Type) where
  /-- Not inside `store`. -/
  | idle : Writer n W
  /-- After `seq0 = seq_.load(...)`, before `seq_.store(seq0 + 1, ...)`. -/
  | loaded (input : Payload n W) (seq0 : Nat) : Writer n W
  /-- After `seq_.store(seq0 + 1, ...)` with `i` words of `value_ = input` copied, before
  `seq_.store(seq0 + 2, ...)`. -/
  | copying (input : Payload n W) (seq0 : Nat) (i : Nat) : Writer n W

/-- Whether the writer stands between its first and its last write of the counter. -/
def Writer.betweenCounterWrites {n : Nat} {W : Type} : Writer n W → Bool
  | .copying _ _ _ => true
  | _ => false

/-- Program points of a reader inside `SPSeqLock::load()`; `ret` is the local copy. -/
inductive Reader (n : Nat) (W : Type) where
  /-- About to execute `seq0 = seq_.load(...)` (outside `load`, or at the top of the loop). -/
  | idle (ret : Payload n W) : Reader n W
  /-- After `seq0 = seq_.load(...)` with `i` words of `ret = value_` copied, before
  `seq1 = seq_.load(...)`. -/
  | copying (ret : Payload n W) (seq0 : Nat) (i : Nat) : Reader n W

/-- One cell shared by one writer and the readers `0, 1, 2, ...`. The last three fields are
history variables: they record what was called and returned and are never read by a step. -/
structure SPState (n : Nat) (W : Type) where
  value_ : Payload n W
  seq_ : Nat
  writer : Writer n W
  readers : Nat → Reader n W
  /-- Arguments of the calls of `store` so far, latest first. -/
  stores : List (Payload n W)
  /-- Number of calls of `store` that have returned. -/
  completed : Nat
  /-- For each call of `load` that has returned, latest first: the counter reading `seq0` of
  the iteration that was accepted, and the value returned. -/
  loads : List (Nat × Payload n W)

/-- A freshly constructed cell (`SPSeqLock.new`), nobody inside a call; `garbage` is the
uninitialised content of every reader's local `T ret;`. -/
def SPState.init {n : Nat} {W : Type} (dflt garbage : Payload n W) : SPState n W :=
  { value_ := dflt, seq_ := 0, writer := .idle, readers := fun _ => .idle garbage,
    stores := [], completed := 0, loads := [] }

/-- Scheduler choices. -/
inductive Action (n : Nat) (W : Type) where
  /-- The writer calls `store(input)` and executes `seq0 = seq_.load(...)`. -/
  | store (input : Payload n W) : Action n W
  /-- The writer executes its next step inside `store`. -/
  | writer : Action n W
  /-- Reader `r` executes its next step (calling `load()` when it is outside). -/
  | reader (r : Nat) : Action n W

/-- One atomic step. An action that is not enabled leaves the state as it is. -/
def SPState.step {n : Nat} {W : Type} (s : SPState n W) : Action n W → SPState n W
  | .store input =>
    match s.writer with
    | .idle => { s with writer := .loaded input s.seq_, stores := input :: s.stores }
    | _ => s
  | .writer =>
    match s.writer with
    | .idle => s
    | .loaded input seq0 =>
      { s with seq_ := (seq0 + 1) % 2 ^ 64, writer := .copying input seq0 0 }
    | .copying input seq0 i =>
      if h : i < n then
        { s with value_ := Function.update s.value_ ⟨i, h⟩ (input ⟨i, h⟩),
                 writer := .copying input seq0 (i + 1) }
      else
        { s with seq_ := (seq0 + 2) % 2 ^ 64, writer := .idle, completed := s.completed + 1 }
  | .reader r =>
    match s.readers r with
    | .idle ret => { s with readers := Function.update s.readers r (.copying ret s.seq_ 0) }
    | .copying ret seq0 i =>
      if h : i < n then
        { s with readers := Function.update s.readers r
                   (.copying (Function.update ret ⟨i, h⟩ (s.value_ ⟨i, h⟩)) seq0 (i + 1)) }
      else
        match loadIter seq0 s.seq_ ret with
        | some v => { s with readers := Function.update s.readers r (.idle ret),
                             loads := (seq0, v) :: s.loads }
        | none => { s with readers := Function.update s.readers r (.idle ret) }

/-- The state after a schedule. -/
def SPState.run {n : Nat} {W : Type} (s : SPState n W) (sched : List (Action n W)) :
    SPState n W :=
  sched.foldl SPState.step s

/-! ## Interleaving semantics of `MPSeqLock::store` -/

/-- Program points of a thread inside `MPSeqLock::store(input)`. -/
inductive MPWriter (T : Type) where
  /-- Not inside `store`. -/
  | idle : MPWriter T
  /-- After `seq0 = seq_.load(...)`, before `seq_.store(seq0 + 1, ...)`. -/
  | loaded (input : T) (seq0 : Nat) : MPWriter T
  /-- After `seq_.store(seq0 + 1, ...)`, at the condition of the `while` loop. -/
  | arbitrating (input : T) (seq0 : Nat) : MPWriter T
  /-- Past the `while` loop, before `value_ = input`. -/
  | claimed (input : T) (seq0 : Nat) : MPWriter T
  /-- After `value_ = input`, before `seq_.store(seq0 + 2, ...)`. -/
  | copied (input : T) (seq0 : Nat) : MPWriter T
  deriving DecidableEq

/-- Past the arbitration loop and before the final counter store. -/
def MPWriter.inRegion {T : Type} : MPWriter T → Bool
  | .claimed _ _ => true
  | .copied _ _ => true
  | _ => false

/-- One cell shared by the writer threads `0, 1, 2, ...`. -/
structure MPState (T : Type) where
  value_ : T
  seq_ : Nat
  threads : Nat → MPWriter T

/-- A freshly constructed cell (`MPSeqLock.new`), nobody inside a call. -/
def MPState.init {T : Type} (dflt : T) : MPState T :=
  { value_ := dflt, seq_ := 0, threads := fun _ => .idle }

/-- Scheduler choices. -/
inductive MPAction (T : Type) where
  /-- Thread `t` calls `store(input)` and executes `seq0 = seq_.load(...)`. -/
  | store (t : Nat) (input : T) : MPAction T
  /-- Thread `t` executes its next step inside `store`; `spurious` is consulted only when that
  step is a compare-and-swap. -/
  | next (t : Nat) (spurious : Bool) : MPAction T

/-- One atomic step. An action that is not enabled leaves the state as it is. -/
def MPState.step {T : Type} (s : MPState T) : MPAction T → MPState T
  | .store t input =>
    match s.threads t with
    | .idle => { s with threads := Function.update s.threads t (.loaded input s.seq_) }
    | _ => s
  | .next t spurious =>
    match s.threads t with
    | .idle => s
    | .loaded input seq0 =>
      { s with seq_ := (seq0 + 1) % 2 ^ 64,
               threads := Function.update s.threads t (.arbitrating input seq0) }
    | .arbitrating input seq0 =>
      match arbitrationIter s.seq_ seq0 spurious with
      | (true, cur, seq01) =>
        { s with seq_ := cur, threads := Function.update s.threads t (.arbitrating input seq01) }
      | (false, cur, seq01) =>
        { s with seq_ := cur, threads := Function.update s.threads t (.claimed input seq01) }
    | .claimed input seq0 =>
      { s with value_ := input, threads := Function.update s.threads t (.copied input seq0) }
    | .copied _ seq0 =>
      { s with seq_ := (seq0 + 2) % 2 ^ 64, threads := Function.update s.threads t .idle }

/-- The state after a schedule. -/
def MPState.run {T : Type} (s : MPState T) (sched : List (MPAction T)) : MPState T :=
  sched.foldl MPState.step s

/-- The schedule of four threads used to exhibit two writers in the region at once. -/
def raceSchedule : List (MPAction Nat) :=
  [.store 0 10, .store 1 11, .next 0 false, .next 1 false, .store 2 12, .next 2 false,
   .next 0 false, .next 0 false, .store 3 13, .next 3 false, .next 1 false, .next 1 false]

/-- The payload `Data data = {counter, counter + 100, counter + (counter + 100)}` of the test
`SeqLockFuzzTest.ConcurrentReadWrite`, as three words. -/
def fuzzData (counter : Nat) : Payload 3 Nat :=
  fun j => if j.val = 0 then counter else if j.val = 1 then counter + 100
    else counter + (counter + 100)

/-- A schedule in which reader `0` starts a `load()` while `store(fuzzData 0)` is copying,
retries, and then returns; a second `store(fuzzData 1)` is under way at the end. -/
def fuzzSchedule : List (Action 3 Nat) :=
  [.store (fuzzData 0), .writer, .writer, .reader 0, .reader 0, .reader 0, .writer, .writer,
   .reader 0, .writer, .reader 0, .reader 0, .reader 0, .reader 0, .reader 0, .reader 0,
   .store (fuzzData 1), .writer, .writer]

/-! ## Invariants of the `SPSeqLock` machine -/

/-- Counter invariant, modulo `2 ^ 64`: the counter is twice the number of completed stores,
plus one while the writer is between its two counter writes. -/
def SPState.CounterInv {n : Nat} {W : Type} (s : SPState n W) : Prop :=
  match s.writer with
  | .idle => s.seq_ = (2 * s.completed) % 2 ^ 64
  | .loaded _ seq0 => seq0 = s.seq_ ∧ s.seq_ = (2 * s.completed) % 2 ^ 64
  | .copying _ seq0 _ => seq0 = (2 * s.completed) % 2 ^ 64 ∧ s.seq_ = (seq0 + 1) % 2 ^ 64

/-- Writer part of the snapshot invariant (no wrap-around): the counter is exactly twice the
number of completed stores (plus one while copying); outside the copy `value_` is the initial
payload, no store having completed, or a stored one; during the copy the first `i` words of
`value_` are those of `input`. -/
def SPState.WriterInv {n : Nat} {W : Type} (dflt : Payload n W) (s : SPState n W) : Prop :=
  match s.writer with
  | .idle =>
    s.stores.length = s.completed ∧ s.seq_ = 2 * s.completed ∧
    ((s.completed = 0 ∧ s.value_ = dflt) ∨ s.value_ ∈ s.stores)
  | .loaded input seq0 =>
    s.stores.length = s.completed + 1 ∧ seq0 = s.seq_ ∧ s.seq_ = 2 * s.completed ∧
    ((s.completed = 0 ∧ s.value_ = dflt) ∨ s.value_ ∈ s.stores) ∧ input ∈ s.stores
  | .copying input seq0 i =>
    s.stores.length = s.completed + 1 ∧ seq0 = 2 * s.completed ∧ s.seq_ = seq0 + 1 ∧
    input ∈ s.stores ∧ ∀ j : Fin n, j.val < i → s.value_ j = input j

/-- Reader part of the snapshot invariant: a reader's `seq0` never exceeds the counter, and
while the counter still equals an even `seq0` the words copied so far agree with `value_`. -/
def SPState.ReadersInv {n : Nat} {W : Type} (s : SPState n W) : Prop :=
  ∀ (r : Nat) (ret : Payload n W) (seq0 i : Nat), s.readers r = .copying ret seq0 i →
    seq0 ≤ s.seq_ ∧
    (seq0 = s.seq_ → s.seq_ % 2 = 0 → ∀ j : Fin n, j.val < i → ret j = s.value_ j)

/-- Snapshot invariant: every value returned so far is the initial payload, accepted at the
counter reading `0`, or a stored one; together with the writer and reader parts. -/
def SPState.SnapshotInv {n : Nat} {W : Type} (dflt : Payload n W) (s : SPState n W) : Prop :=
  (∀ e ∈ s.loads, (e.1 = 0 ∧ e.2 = dflt) ∨ e.2 ∈ s.stores) ∧ s.WriterInv dflt ∧ s.ReadersInv

/-! ## Theorems -/

/-! ### Helper lemmas -/

theorem land_one_ne_zero (x : Nat) : (x &&& 1 != 0) = decide (x % 2 = 1) := by
  rw [Nat.and_one_is_mod]
  rcases Nat.mod_two_eq_zero_or_one x with h | h <;> simp [h]

theorem loadRetry_eq_true_iff (seq0 seq1 : Nat) :
    loadRetry seq0 seq1 = true ↔ (seq0 ≠ seq1 ∨ seq0 % 2 = 1) := by
  simp [loadRetry, land_one_ne_zero]

theorem loadIter_eq_some_iff {T : Type} (seq0 seq1 : Nat) (ret v : T) :
    loadIter seq0 seq1 ret = some v ↔ (seq0 = seq1 ∧ seq0 % 2 = 0 ∧ v = ret) := by
  unfold loadIter
  by_cases h : loadRetry seq0 seq1 = true
  · have h2 := (loadRetry_eq_true_iff seq0 seq1).1 h
    rw [if_pos h]
    constructor
    · intro h3; cases h3
    · rintro ⟨h3, h4, _⟩
      omega
  · have h2 : ¬ (seq0 ≠ seq1 ∨ seq0 % 2 = 1) :=
      fun h3 => h ((loadRetry_eq_true_iff seq0 seq1).2 h3)
    rw [if_neg h]
    constructor
    · intro h3
      refine ⟨?_, ?_, ?_⟩
      · by_contra h4; exact h2 (Or.inl h4)
      · omega
      · exact (Option.some.inj h3).symm
    · rintro ⟨_, _, h5⟩
      rw [h5]

theorem loadIter_same_even {T : Type} (q : Nat) (ret : T) (h : q % 2 = 0) :
    loadIter q q ret = some ret :=
  (loadIter_eq_some_iff q q ret ret).2 ⟨rfl, h, rfl⟩

theorem arbitrationLoop_odd (cur seq0 : Nat) (h : seq0 % 2 = 1) (fuel : Nat) :
    ∀ spur : Nat → Bool, arbitrationLoop cur seq0 spur fuel = none := by
  induction fuel with
  | zero => intro spur; rfl
  | succ k ih =>
    intro spur
    have h1 : arbitrationIter cur seq0 (spur 0) = (true, cur, seq0) := by
      simp [arbitrationIter, land_one_ne_zero, h]
    simp only [arbitrationLoop, h1]
    exact ih _

/-! ### Layout -/

/-- Claim C7: for every cache-line size `C >= 1` (and every payload size and counter size), the
members `value_`, `seq_` and `padding_` together take a whole multiple of `C` bytes, namely
`((s + q) / C + 1) * C`. -/
theorem members_whole_cache_lines (s q C : Nat) (hC : 1 ≤ C) :
    C ∣ membersLen s q C ∧ membersLen s q C = ((s + q) / C + 1) * C := by
  have hlt : (s + q) % C < C := Nat.mod_lt _ (by omega)
  have hdiv : C * ((s + q) / C) + (s + q) % C = s + q := Nat.div_add_mod (s + q) C
  have heq : membersLen s q C = ((s + q) / C + 1) * C := by
    unfold membersLen paddingLen
    have : ((s + q) / C + 1) * C = C * ((s + q) / C) + C := by ring
    omega
  exact ⟨⟨(s + q) / C + 1, by rw [heq]; ring⟩, heq⟩

/-- Witness of claim C7 at `sizeof(value_) = 4`, `sizeof(seq_) = 8`, `Cacheline_Size = 128`. -/
theorem members_whole_cache_lines_witness :
    1 ≤ 128 ∧ (128 ∣ membersLen 4 8 128 ∧ membersLen 4 8 128 = ((4 + 8) / 128 + 1) * 128) :=
  ⟨by decide, members_whole_cache_lines 4 8 128 (by decide)⟩

/-- Claim C10: for every cache-line size `C >= 1` the padding length `p` satisfies
`1 <= p <= C`; `p = C` exactly when `s + q` is a multiple of `C`, and then `s + q` rounded up
to a multiple of `C` is `s + q` itself while the members take `s + q + C` bytes, one cache
line more. -/
theorem padding_never_empty (s q C : Nat) (hC : 1 ≤ C) :
    1 ≤ paddingLen s q C ∧ paddingLen s q C ≤ C ∧
    (paddingLen s q C = C ↔ C ∣ s + q) ∧
    (C ∣ s + q → roundUp (s + q) C = s + q ∧ membersLen s q C = roundUp (s + q) C + C) := by
  have hlt : (s + q) % C < C := Nat.mod_lt _ (by omega)
  have hiff : paddingLen s q C = C ↔ C ∣ s + q := by
    rw [Nat.dvd_iff_mod_eq_zero]
    unfold paddingLen
    omega
  refine ⟨by unfold paddingLen; omega, by unfold paddingLen; omega, hiff, ?_⟩
  intro hd
  have hp : paddingLen s q C = C := hiff.2 hd
  obtain ⟨k, hk⟩ := hd
  have hr : roundUp (s + q) C = s + q := by
    unfold roundUp
    rw [hk]
    have h1 : C * k + C - 1 = (C - 1) + C * k := by omega
    rw [h1, Nat.add_mul_div_left _ _ (by omega : 0 < C), Nat.div_eq_of_lt (by omega)]
    rw [Nat.zero_add, Nat.mul_comm]
  refine ⟨hr, ?_⟩
  unfold membersLen
  rw [hp, hr]

/-- Witness of claim C10 at `s = 120`, `q = 8`, `C = 128`: the padding is `128` bytes long and
the members take `256` bytes. -/
theorem padding_never_empty_witness :
    1 ≤ 128 ∧ paddingLen 120 8 128 = 128 ∧ membersLen 120 8 128 = 256 ∧
    (1 ≤ paddingLen 120 8 128 ∧ paddingLen 120 8 128 ≤ 128 ∧
     (paddingLen 120 8 128 = 128 ↔ 128 ∣ 120 + 8) ∧
     (128 ∣ 120 + 8 → roundUp (120 + 8) 128 = 120 + 8 ∧
        membersLen 120 8 128 = roundUp (120 + 8) 128 + 128)) :=
  ⟨by decide, by decide, by decide, padding_never_empty 120 8 128 (by decide)⟩

/-! ### The reader's acceptance test -/

/-- Claim C8: one iteration of `load()` retries exactly when the two readings differ or one of
them is odd, and returns the copy exactly when they are equal and both even; the code's test,
which looks at the parity of `seq0` only, is that condition; `SPSeqLock::load` and
`MPSeqLock::load` run the same iteration. -/
theorem load_acceptance {T : Type} (seq0 seq1 : Nat) (ret : T) :
    (loadRetry seq0 seq1 = true ↔ (seq0 ≠ seq1 ∨ seq0 % 2 = 1 ∨ seq1 % 2 = 1)) ∧
    (loadIter seq0 seq1 ret = none ↔ (seq0 ≠ seq1 ∨ seq0 % 2 = 1 ∨ seq1 % 2 = 1)) ∧
    (loadIter seq0 seq1 ret = some ret ↔ (seq0 = seq1 ∧ seq0 % 2 = 0 ∧ seq1 % 2 = 0)) ∧
    (∀ (value : T) (fuel : Nat),
      SPSeqLock.load ⟨value, seq0⟩ fuel = MPSeqLock.load ⟨value, seq0⟩ fuel) := by
  have h1 : loadRetry seq0 seq1 = true ↔ (seq0 ≠ seq1 ∨ seq0 % 2 = 1 ∨ seq1 % 2 = 1) := by
    rw [loadRetry_eq_true_iff]
    constructor
    · rintro (h | h)
      · exact Or.inl h
      · exact Or.inr (Or.inl h)
    · rintro (h | h | h)
      · exact Or.inl h
      · exact Or.inr h
      · by_cases he : seq0 = seq1
        · exact Or.inr (he ▸ h)
        · exact Or.inl he
  refine ⟨h1, ?_, ?_, ?_⟩
  · rw [← h1]
    unfold loadIter
    by_cases h : loadRetry seq0 seq1 = true
    · simp [h]
    · simp [h]
  · rw [loadIter_eq_some_iff]
    constructor
    · rintro ⟨h, h2, _⟩
      exact ⟨h, h2, h ▸ h2⟩
    · rintro ⟨h, h2, _⟩
      exact ⟨h, h2, rfl⟩
  · intro value fuel
    induction fuel with
    | zero => rfl
    | succ k ih =>
      simp only [SPSeqLock.load, MPSeqLock.load]
      rw [ih]

/-! ### Sequential behaviour of `SPSeqLock` -/

/-- Claim C1: on a cell whose counter is even, with no other thread, `store(v)` followed by
`load()` returns `v` in the first iteration of the loop, and after a further `store(v2)` the
next `load()` returns `v2`. -/
theorem SPSeqLock.store_load {T : Type} (c : SPSeqLock T) (v : T) (fuel : Nat)
    (h : c.seq_ % 2 = 0) :
    (c.store v).load (fuel + 1) = some v ∧
    ∀ v2 : T, ((c.store v).store v2).load (fuel + 1) = some v2 := by
  have key : ∀ (d : SPSeqLock T) (w : T), d.seq_ % 2 = 0 →
      (d.store w).load (fuel + 1) = some w ∧ (d.store w).seq_ % 2 = 0 := by
    intro d w hd
    have he : ((d.seq_ + 2) % 2 ^ 64) % 2 = 0 := by omega
    refine ⟨?_, he⟩
    simp only [SPSeqLock.load, SPSeqLock.store]
    rw [loadIter_same_even _ _ he]
  refine ⟨(key c v h).1, fun v2 => (key (c.store v) v2 (key c v h).2).1⟩

/-- Witness of claim C1 on a fresh `int` cell: `store(42)`, `load() = 42`, `store(100)`,
`load() = 100`. -/
theorem SPSeqLock.store_load_witness :
    (SPSeqLock.new (0 : Int)).seq_ % 2 = 0 ∧
    (((SPSeqLock.new (0 : Int)).store 42).load (0 + 1) = some 42 ∧
     ∀ v2 : Int, (((SPSeqLock.new (0 : Int)).store 42).store v2).load (0 + 1) = some v2) :=
  ⟨by decide, SPSeqLock.store_load (SPSeqLock.new (0 : Int)) 42 0 (by decide)⟩

/-- Claim C5, refuted as stated: the constructor sets `seq_` only, so a fresh cell with an
`int` payload whose storage held `7` is read as `7`, not as `0`. -/
theorem SPSeqLock.fresh_int_not_zero :
    (SPSeqLock.new (7 : Int)).load 1 = some 7 ∧ (SPSeqLock.new (7 : Int)).load 1 ≠ some 0 := by
  decide

/-- Claim C5, amended: a fresh cell has counter `0` and holds the default-initialised payload
`dflt`; `load()` before any store returns `dflt` in the first iteration of its loop, for
`SPSeqLock` and for `MPSeqLock`. -/
theorem SPSeqLock.fresh_load {T : Type} (dflt : T) (fuel : Nat) :
    (SPSeqLock.new dflt).seq_ = 0 ∧ (SPSeqLock.new dflt).load (fuel + 1) = some dflt ∧
    (MPSeqLock.new dflt).seq_ = 0 ∧ (MPSeqLock.new dflt).load (fuel + 1) = some dflt := by
  refine ⟨rfl, ?_, rfl, ?_⟩
  · simp only [SPSeqLock.load, SPSeqLock.new]
    rw [loadIter_same_even 0 dflt rfl]
  · simp only [MPSeqLock.load, MPSeqLock.new]
    rw [loadIter_same_even 0 dflt rfl]

/-! ### `MPSeqLock::store` -/

/-- Claim C3, the behaviour of the code: run alone on any cell, `MPSeqLock::store` does not
return, whatever the fuel and whatever the spurious failures. After `seq_.store(seq0 + 1)` the
first compare-and-swap (if `seq0` is even) fails and makes `seq0` odd, and with `seq0` odd the
loop condition holds for ever. -/
theorem MPSeqLock.store_alone_never_returns {T : Type} (c : MPSeqLock T) (input : T)
    (spur : Nat → Bool) (fuel : Nat) :
    c.store input spur fuel = none := by
  have hloop : arbitrationLoop ((c.seq_ + 1) % 2 ^ 64) c.seq_ spur fuel = none := by
    rcases Nat.mod_two_eq_zero_or_one c.seq_ with h | h
    · cases fuel with
      | zero => rfl
      | succ k =>
        have hne : ¬ ((c.seq_ + 1) % 2 ^ 64 = c.seq_ ∧ spur 0 = false) := by
          rintro ⟨h1, _⟩
          omega
        have h1 : arbitrationIter ((c.seq_ + 1) % 2 ^ 64) c.seq_ (spur 0) =
            (true, (c.seq_ + 1) % 2 ^ 64, (c.seq_ + 1) % 2 ^ 64) := by
          have hc : compare_exchange_weak ((c.seq_ + 1) % 2 ^ 64) c.seq_
              ((c.seq_ + 1) % 2 ^ 64) (spur 0) =
              (false, (c.seq_ + 1) % 2 ^ 64, (c.seq_ + 1) % 2 ^ 64) := by
            unfold compare_exchange_weak
            rw [if_neg hne]
          have hp : (c.seq_ &&& 1 != 0) = false := by
            rw [land_one_ne_zero]; simp [h]
          unfold arbitrationIter
          rw [hp, hc]
          rfl
        simp only [arbitrationLoop, h1]
        exact arbitrationLoop_odd _ _ (by omega) k _
    · exact arbitrationLoop_odd _ _ h fuel spur
  simp only [MPSeqLock.store, hloop]

/-- Claim C9, the behaviour of the code: with the counter at `2` and the local expectation at
`1`, an iteration of the arbitration loop stays in the loop and leaves the expectation at `1`,
not at the counter's value, and the loop never exits although the counter is even. In general
an iteration with an odd expectation changes nothing, while an iteration whose compare-and-swap
fails does leave the expectation equal to the counter. -/
theorem arbitration_odd_expectation_not_reloaded :
    (∀ spurious : Bool, arbitrationIter 2 1 spurious = (true, 2, 1)) ∧
    (∀ (spur : Nat → Bool) (fuel : Nat), arbitrationLoop 2 1 spur fuel = none) ∧
    (∀ (cur seq0 : Nat) (spurious : Bool), seq0 % 2 = 1 →
      arbitrationIter cur seq0 spurious = (true, cur, seq0)) ∧
    (∀ (cur seq0 : Nat) (spurious : Bool), seq0 % 2 = 0 →
      (arbitrationIter cur seq0 spurious).1 = true →
      (arbitrationIter cur seq0 spurious).2 = (cur, cur)) := by
  refine ⟨?_, ?_, ?_, ?_⟩
  · intro b; simp [arbitrationIter]
  · intro spur fuel; exact arbitrationLoop_odd 2 1 rfl fuel spur
  · intro cur seq0 b h
    simp [arbitrationIter, land_one_ne_zero, h]
  · intro cur seq0 b h
    have hp : (seq0 &&& 1 != 0) = false := by
      rw [land_one_ne_zero]; simp [h]
    unfold arbitrationIter compare_exchange_weak
    rw [hp]
    by_cases hc : cur = seq0 ∧ b = false
    · rw [if_pos hc]; intro h1; cases h1
    · rw [if_neg hc]; intro _; rfl

/-- Claim C4, the behaviour of the code: from a fresh cell, after `raceSchedule` threads `0`
and `1` are both past the arbitration loop and before their final counter store; and after
its first ten steps thread `0` is in that region while the counter is `4`, which is even. -/
theorem MPState.two_writers_in_region :
    ((MPState.run (MPState.init 0) raceSchedule).threads 0).inRegion = true ∧
    ((MPState.run (MPState.init 0) raceSchedule).threads 1).inRegion = true ∧
    ((MPState.run (MPState.init 0) (raceSchedule.take 10)).threads 0).inRegion = true ∧
    (MPState.run (MPState.init 0) (raceSchedule.take 10)).seq_ = 4 := by
  decide

/-! ### Parity of the counter of `SPSeqLock` -/

theorem SPState.counterInv_init {n : Nat} {W : Type} (dflt garbage : Payload n W) :
    (SPState.init dflt garbage).CounterInv := by
  simp [SPState.CounterInv, SPState.init]

theorem SPState.counterInv_step {n : Nat} {W : Type} (s : SPState n W) (a : Action n W)
    (h : s.CounterInv) : (s.step a).CounterInv := by
  unfold SPState.CounterInv at h ⊢
  cases a with
  | store input =>
    cases hw : s.writer with
    | idle => rw [hw] at h; simp only [SPState.step, hw]; exact ⟨trivial, h⟩
    | loaded inp q => rw [hw] at h; simp only [SPState.step, hw]; exact h
    | copying inp q i => rw [hw] at h; simp only [SPState.step, hw]; exact h
  | writer =>
    cases hw : s.writer with
    | idle => rw [hw] at h; simp only [SPState.step, hw]; exact h
    | loaded inp q =>
      rw [hw] at h
      simp only [SPState.step, hw]
      exact ⟨by rw [h.1, h.2], trivial⟩
    | copying inp q i =>
      rw [hw] at h
      simp only [SPState.step, hw]
      by_cases hi : i < n
      · rw [dif_pos hi]; exact h
      · rw [dif_neg hi]
        show (q + 2) % 2 ^ 64 = (2 * (s.completed + 1)) % 2 ^ 64
        rw [h.1]; omega
  | reader r =>
    have key : ∀ t : SPState n W, t.writer = s.writer → t.seq_ = s.seq_ →
        t.completed = s.completed →
        (match t.writer with
          | .idle => t.seq_ = (2 * t.completed) % 2 ^ 64
          | .loaded _ seq0 => seq0 = t.seq_ ∧ t.seq_ = (2 * t.completed) % 2 ^ 64
          | .copying _ seq0 _ =>
            seq0 = (2 * t.completed) % 2 ^ 64 ∧ t.seq_ = (seq0 + 1) % 2 ^ 64) := by
      intro t h1 h2 h3
      rw [h1, h2, h3]; exact h
    apply key
    all_goals
      simp only [SPState.step]
      cases s.readers r with
      | idle ret => rfl
      | copying ret q i =>
        by_cases hi : i < n
        · simp only [dif_pos hi]
        · simp only [dif_neg hi]
          cases loadIter q s.seq_ ret <;> rfl

theorem SPState.counterInv_run {n : Nat} {W : Type} (sched : List (Action n W)) :
    ∀ s : SPState n W, s.CounterInv → (s.run sched).CounterInv := by
  induction sched with
  | nil => intro s h; exact h
  | cons a rest ih =>
    intro s h
    exact ih (s.step a) (SPState.counterInv_step s a h)

theorem SPState.value_changes_only_while_copying {n : Nat} {W : Type} (s : SPState n W)
    (a : Action n W) (h : (s.step a).value_ ≠ s.value_) :
    s.writer.betweenCounterWrites = true := by
  cases a with
  | store input =>
    exfalso; apply h
    simp only [SPState.step]
    cases s.writer <;> rfl
  | writer =>
    cases hw : s.writer with
    | idle => exfalso; apply h; simp only [SPState.step, hw]
    | loaded inp q => exfalso; apply h; simp only [SPState.step, hw]
    | copying inp q i => rfl
  | reader r =>
    exfalso; apply h
    simp only [SPState.step]
    cases s.readers r with
    | idle ret => rfl
    | copying ret q i =>
      by_cases hi : i < n
      · simp only [dif_pos hi]
      · simp only [dif_neg hi]
        cases loadIter q s.seq_ ret <;> rfl

/-- Claim C6: in every state reached from a fresh cell by steps of the single writer (and of
any readers), the counter is odd exactly when the writer is between its first and its last
counter write; a step changes `value_` only while the counter is odd; and when no store is in
progress the counter is even and equals twice the number of completed stores modulo
`2 ^ 64`. -/
theorem SPState.parity_encodes_lock_state {n : Nat} {W : Type} (dflt garbage : Payload n W)
    (sched : List (Action n W)) :
    (((SPState.init dflt garbage).run sched).seq_ % 2 = 1 ↔
      ((SPState.init dflt garbage).run sched).writer.betweenCounterWrites = true) ∧
    (∀ a : Action n W,
      (((SPState.init dflt garbage).run sched).step a).value_ ≠
        ((SPState.init dflt garbage).run sched).value_ →
      ((SPState.init dflt garbage).run sched).seq_ % 2 = 1) ∧
    (((SPState.init dflt garbage).run sched).writer = Writer.idle →
      ((SPState.init dflt garbage).run sched).seq_ % 2 = 0 ∧
      ((SPState.init dflt garbage).run sched).seq_ =
        (2 * ((SPState.init dflt garbage).run sched).completed) % 2 ^ 64) := by
  have hinv := SPState.counterInv_run sched _ (SPState.counterInv_init dflt garbage)
  generalize (SPState.init dflt garbage).run sched = s at hinv
  have hpar : s.seq_ % 2 = 1 ↔ s.writer.betweenCounterWrites = true := by
    unfold SPState.CounterInv at hinv
    cases hw : s.writer with
    | idle =>
      rw [hw] at hinv
      simp only [Writer.betweenCounterWrites]
      constructor
      · intro h; omega
      · intro h; cases h
    | loaded inp q =>
      rw [hw] at hinv
      simp only [Writer.betweenCounterWrites]
      constructor
      · intro h; omega
      · intro h; cases h
    | copying inp q i =>
      rw [hw] at hinv
      simp only [Writer.betweenCounterWrites]
      constructor
      · intro _; trivial
      · intro _; omega
  refine ⟨hpar, ?_, ?_⟩
  · intro a ha
    exact hpar.2 (SPState.value_changes_only_while_copying s a ha)
  · intro hw
    unfold SPState.CounterInv at hinv
    rw [hw] at hinv
    exact ⟨by omega, hinv⟩

/-! ### Snapshot coherence of `SPSeqLock` -/

theorem SPState.stores_length_step {n : Nat} {W : Type} (s : SPState n W) (a : Action n W) :
    s.stores.length ≤ (s.step a).stores.length := by
  cases a with
  | store input =>
    simp only [SPState.step]
    cases s.writer with
    | idle => simp
    | loaded inp q => exact Nat.le_refl _
    | copying inp q i => exact Nat.le_refl _
  | writer =>
    simp only [SPState.step]
    cases s.writer with
    | idle => exact Nat.le_refl _
    | loaded inp q => exact Nat.le_refl _
    | copying inp q i =>
      by_cases hi : i < n
      · simp only [dif_pos hi]; exact Nat.le_refl _
      · simp only [dif_neg hi]; exact Nat.le_refl _
  | reader r =>
    simp only [SPState.step]
    cases s.readers r with
    | idle ret => exact Nat.le_refl _
    | copying ret q i =>
      by_cases hi : i < n
      · simp only [dif_pos hi]; exact Nat.le_refl _
      · simp only [dif_neg hi]
        cases loadIter q s.seq_ ret <;> exact Nat.le_refl _

theorem SPState.stores_length_run {n : Nat} {W : Type} (sched : List (Action n W)) :
    ∀ s : SPState n W, s.stores.length ≤ (s.run sched).stores.length := by
  induction sched with
  | nil => intro s; exact Nat.le_refl _
  | cons a rest ih =>
    intro s
    exact Nat.le_trans (SPState.stores_length_step s a) (ih (s.step a))

theorem SPState.snapshotInv_init {n : Nat} {W : Type} (dflt garbage : Payload n W) :
    (SPState.init dflt garbage).SnapshotInv dflt := by
  refine ⟨?_, ?_, ?_⟩
  · intro x hx; cases hx
  · simp [SPState.WriterInv, SPState.init]
  · intro r ret seq0 i h
    simp [SPState.init] at h

theorem SPState.snapshotInv_store {n : Nat} {W : Type} (dflt : Payload n W) (s : SPState n W)
    (input : Payload n W) (h : s.SnapshotInv dflt) :
    (s.step (.store input)).SnapshotInv dflt := by
  obtain ⟨hl, hw, hr⟩ := h
  unfold SPState.WriterInv at hw
  cases hwr : s.writer with
  | idle =>
    rw [hwr] at hw
    obtain ⟨h1, h2, h3⟩ := hw
    refine ⟨?_, ?_, ?_⟩
    · intro x hx
      simp only [SPState.step, hwr] at hx ⊢
      rcases hl x hx with h | h
      · exact Or.inl h
      · exact Or.inr (List.mem_cons_of_mem _ h)
    · unfold SPState.WriterInv
      simp only [SPState.step, hwr]
      refine ⟨by simp [h1], trivial, h2, ?_, List.mem_cons_self _ _⟩
      rcases h3 with h | h
      · exact Or.inl h
      · exact Or.inr (List.mem_cons_of_mem _ h)
    · intro r ret seq0 i hq
      simp only [SPState.step, hwr] at hq ⊢
      exact hr r ret seq0 i hq
  | loaded inp q =>
    have : s.step (.store input) = s := by simp only [SPState.step, hwr]
    rw [this]; exact ⟨hl, by unfold SPState.WriterInv; exact hw, hr⟩
  | copying inp q i =>
    have : s.step (.store input) = s := by simp only [SPState.step, hwr]
    rw [this]; exact ⟨hl, by unfold SPState.WriterInv; exact hw, hr⟩

theorem SPState.snapshotInv_writer {n : Nat} {W : Type} (dflt : Payload n W) (s : SPState n W)
    (h : s.SnapshotInv dflt) (hb : s.stores.length < 2 ^ 63) :
    (s.step .writer).SnapshotInv dflt := by
  obtain ⟨hl, hw, hr⟩ := h
  unfold SPState.WriterInv at hw
  cases hwr : s.writer with
  | idle =>
    have : s.step .writer = s := by simp only [SPState.step, hwr]
    rw [this]; exact ⟨hl, by unfold SPState.WriterInv; exact hw, hr⟩
  | loaded inp q =>
    rw [hwr] at hw
    obtain ⟨h1, h2, h3, h4, h5⟩ := hw
    have hseq : (q + 1) % 2 ^ 64 = q + 1 := by omega
    refine ⟨?_, ?_, ?_⟩
    · intro x hx
      simp only [SPState.step, hwr] at hx ⊢
      exact hl x hx
    · unfold SPState.WriterInv
      simp only [SPState.step, hwr]
      refine ⟨h1, by omega, hseq, h5, ?_⟩
      intro j hj
      exact absurd hj (Nat.not_lt_zero _)
    · intro r ret seq0 i hq
      simp only [SPState.step, hwr] at hq ⊢
      have := (hr r ret seq0 i hq).1
      rw [hseq]
      refine ⟨by omega, ?_⟩
      intro he
      omega
  | copying inp q i =>
    rw [hwr] at hw
    obtain ⟨h1, h2, h3, h4, h5⟩ := hw
    by_cases hi : i < n
    · refine ⟨?_, ?_, ?_⟩
      · intro x hx
        simp only [SPState.step, hwr, dif_pos hi] at hx ⊢
        exact hl x hx
      · unfold SPState.WriterInv
        simp only [SPState.step, hwr, dif_pos hi]
        refine ⟨h1, h2, h3, h4, ?_⟩
        intro j hj
        by_cases hji : j = ⟨i, hi⟩
        · rw [hji, Function.update_same]
        · rw [Function.update_noteq hji]
          apply h5
          have : j.val ≠ i := fun hv => hji (Fin.ext hv)
          omega
      · intro r ret seq0 k hq
        simp only [SPState.step, hwr, dif_pos hi] at hq ⊢
        have := (hr r ret seq0 k hq).1
        refine ⟨this, ?_⟩
        intro _ hev
        omega
    · have hseq : (q + 2) % 2 ^ 64 = q + 2 := by omega
      have hval : s.value_ = inp := by
        funext j
        exact h5 j (by have := j.isLt; omega)
      refine ⟨?_, ?_, ?_⟩
      · intro x hx
        simp only [SPState.step, hwr, dif_neg hi] at hx ⊢
        exact hl x hx
      · unfold SPState.WriterInv
        simp only [SPState.step, hwr, dif_neg hi]
        refine ⟨h1, by omega, Or.inr ?_⟩
        rw [hval]; exact h4
      · intro r ret seq0 k hq
        simp only [SPState.step, hwr, dif_neg hi] at hq ⊢
        have := (hr r ret seq0 k hq).1
        rw [hseq]
        refine ⟨by omega, ?_⟩
        intro he
        omega

theorem SPState.value_committed_of_even {n : Nat} {W : Type} (dflt : Payload n W)
    (s : SPState n W) (hw : s.WriterInv dflt) (he : s.seq_ % 2 = 0) :
    (s.seq_ = 0 ∧ s.value_ = dflt) ∨ s.value_ ∈ s.stores := by
  unfold SPState.WriterInv at hw
  cases hwr : s.writer with
  | idle =>
    rw [hwr] at hw
    rcases hw.2.2 with h | h
    · exact Or.inl ⟨by rw [hw.2.1, h.1], h.2⟩
    · exact Or.inr h
  | loaded inp q =>
    rw [hwr] at hw
    rcases hw.2.2.2.1 with h | h
    · exact Or.inl ⟨by rw [hw.2.2.1, h.1], h.2⟩
    · exact Or.inr h
  | copying inp q i =>
    rw [hwr] at hw
    obtain ⟨_, h2, h3, _, _⟩ := hw
    omega

theorem SPState.writerInv_congr {n : Nat} {W : Type} (dflt : Payload n W) (s t : SPState n W)
    (h1 : t.writer = s.writer) (h2 : t.seq_ = s.seq_) (h3 : t.completed = s.completed)
    (h4 : t.value_ = s.value_) (h5 : t.stores = s.stores) (hw : s.WriterInv dflt) :
    t.WriterInv dflt := by
  unfold SPState.WriterInv at hw ⊢
  rw [h1, h2, h3, h4, h5]
  exact hw

theorem SPState.snapshotInv_reader {n : Nat} {W : Type} (dflt : Payload n W) (s : SPState n W)
    (r : Nat) (h : s.SnapshotInv dflt) :
    (s.step (.reader r)).SnapshotInv dflt := by
  obtain ⟨hl, hw, hr⟩ := h
  cases hrd : s.readers r with
  | idle ret =>
    refine ⟨?_, ?_, ?_⟩
    · intro x hx
      simp only [SPState.step, hrd] at hx ⊢
      exact hl x hx
    · apply SPState.writerInv_congr dflt s _ _ _ _ _ _ hw <;> simp only [SPState.step, hrd]
    · intro r2 ret2 seq0 k hq
      simp only [SPState.step, hrd] at hq ⊢
      by_cases hrr : r2 = r
      · rw [hrr, Function.update_same] at hq
        injection hq with e1 e2 e3
        subst e2 e3
        refine ⟨Nat.le_refl _, ?_⟩
        intro _ _ j hj
        exact absurd hj (Nat.not_lt_zero _)
      · rw [Function.update_noteq hrr] at hq
        exact hr r2 ret2 seq0 k hq
  | copying ret q i =>
    have hold := hr r ret q i hrd
    by_cases hi : i < n
    · refine ⟨?_, ?_, ?_⟩
      · intro x hx
        simp only [SPState.step, hrd, dif_pos hi] at hx ⊢
        exact hl x hx
      · apply SPState.writerInv_congr dflt s _ _ _ _ _ _ hw <;>
          simp only [SPState.step, hrd, dif_pos hi]
      · intro r2 ret2 seq0 k hq
        simp only [SPState.step, hrd, dif_pos hi] at hq ⊢
        by_cases hrr : r2 = r
        · rw [hrr, Function.update_same] at hq
          injection hq with e1 e2 e3
          subst e1 e2 e3
          refine ⟨hold.1, ?_⟩
          intro he hev j hj
          by_cases hji : j = ⟨i, hi⟩
          · rw [hji, Function.update_same]
          · rw [Function.update_noteq hji]
            apply hold.2 he hev
            have : j.val ≠ i := fun hv => hji (Fin.ext hv)
            omega
        · rw [Function.update_noteq hrr] at hq
          exact hr r2 ret2 seq0 k hq
    · have hreaders : ∀ t : SPState n W, t.readers = Function.update s.readers r (.idle ret) →
          t.seq_ = s.seq_ → t.value_ = s.value_ → t.ReadersInv := by
        intro t h1 h2 h3 r2 ret2 seq0 k hq
        rw [h1] at hq
        rw [h2, h3]
        by_cases hrr : r2 = r
        · rw [hrr, Function.update_same] at hq
          cases hq
        · rw [Function.update_noteq hrr] at hq
          exact hr r2 ret2 seq0 k hq
      cases hit : loadIter q s.seq_ ret with
      | none =>
        refine ⟨?_, ?_, ?_⟩
        · intro x hx
          simp only [SPState.step, hrd, dif_neg hi, hit] at hx ⊢
          exact hl x hx
        · apply SPState.writerInv_congr dflt s _ _ _ _ _ _ hw <;>
            simp only [SPState.step, hrd, dif_neg hi, hit]
        · apply hreaders <;> simp only [SPState.step, hrd, dif_neg hi, hit]
      | some v =>
        obtain ⟨e1, e2, e3⟩ := (loadIter_eq_some_iff q s.seq_ ret v).1 hit
        have hev : s.seq_ % 2 = 0 := by omega
        have hret : ret = s.value_ := by
          funext j
          exact hold.2 e1 hev j (by have := j.isLt; omega)
        refine ⟨?_, ?_, ?_⟩
        · intro x hx
          simp only [SPState.step, hrd, dif_neg hi, hit] at hx ⊢
          rcases List.mem_cons.1 hx with hx | hx
          · rw [hx]
            show (q = 0 ∧ v = dflt) ∨ v ∈ s.stores
            rw [e3, hret, e1]
            exact SPState.value_committed_of_even dflt s hw hev
          · exact hl x hx
        · apply SPState.writerInv_congr dflt s _ _ _ _ _ _ hw <;>
            simp only [SPState.step, hrd, dif_neg hi, hit]
        · apply hreaders <;> simp only [SPState.step, hrd, dif_neg hi, hit]

theorem SPState.snapshotInv_step {n : Nat} {W : Type} (dflt : Payload n W) (s : SPState n W)
    (a : Action n W) (h : s.SnapshotInv dflt) (hb : s.stores.length < 2 ^ 63) :
    (s.step a).SnapshotInv dflt := by
  cases a with
  | store input => exact SPState.snapshotInv_store dflt s input h
  | writer => exact SPState.snapshotInv_writer dflt s h hb
  | reader r => exact SPState.snapshotInv_reader dflt s r h

theorem SPState.snapshotInv_run {n : Nat} {W : Type} (dflt : Payload n W)
    (sched : List (Action n W)) :
    ∀ s : SPState n W, s.SnapshotInv dflt → (s.run sched).stores.length < 2 ^ 63 →
      (s.run sched).SnapshotInv dflt := by
  induction sched with
  | nil => intro s h _; exact h
  | cons a rest ih =>
    intro s h hb
    have hb1 : s.stores.length < 2 ^ 63 :=
      Nat.lt_of_le_of_lt (SPState.stores_length_run (a :: rest) s) hb
    exact ih (s.step a) (SPState.snapshotInv_step dflt s a h hb1) hb

/-- Claim C2: from a fresh cell with initial payload `dflt`, under every interleaving of one
writer and any number of readers in which counter accesses are single steps and payloads are
copied word by word, if fewer than `2 ^ 63` stores have been called then every value returned
by `load()` is `dflt` or one of the payloads passed to `store`, and it is one of those payloads
whenever the accepted counter reading is not `0` (a store had completed). Hence a property of
every stored payload holds of every value loaded after the first store completed, and of
every loaded value when it also holds of `dflt`. -/
theorem SPState.snapshot_coherence {n : Nat} {W : Type} (dflt garbage : Payload n W)
    (sched : List (Action n W))
    (hb : ((SPState.init dflt garbage).run sched).stores.length < 2 ^ 63) :
    (∀ e ∈ ((SPState.init dflt garbage).run sched).loads,
      e.2 = dflt ∨ e.2 ∈ ((SPState.init dflt garbage).run sched).stores) ∧
    (∀ e ∈ ((SPState.init dflt garbage).run sched).loads,
      e.1 ≠ 0 → e.2 ∈ ((SPState.init dflt garbage).run sched).stores) ∧
    (∀ P : Payload n W → Prop,
      (∀ v ∈ ((SPState.init dflt garbage).run sched).stores, P v) →
      ∀ e ∈ ((SPState.init dflt garbage).run sched).loads, (e.1 ≠ 0 ∨ P dflt) → P e.2) := by
  have hinv := SPState.snapshotInv_run dflt sched _ (SPState.snapshotInv_init dflt garbage) hb
  refine ⟨?_, ?_, ?_⟩
  · intro e he
    rcases hinv.1 e he with h | h
    · exact Or.inl h.2
    · exact Or.inr h
  · intro e he hne
    rcases hinv.1 e he with h | h
    · exact absurd h.1 hne
    · exact h
  · intro P hs e he hor
    rcases hinv.1 e he with h | h
    · rcases hor with h1 | h1
      · exact absurd h.1 h1
      · rw [h.2]; exact h1
    · exact hs e.2 h

/-- Witness of claim C2: after `fuzzSchedule` on a cell of three words, two stores have been
called and one `load()` has returned, which the theorem covers. -/
theorem SPState.snapshot_coherence_witness :
    ((SPState.init (fun _ => 0) (fun _ => 7)).run fuzzSchedule).stores.length < 2 ^ 63 ∧
    ((∀ e ∈ ((SPState.init (fun _ => 0) (fun _ => 7)).run fuzzSchedule).loads,
      e.2 = (fun _ => 0) ∨
        e.2 ∈ ((SPState.init (fun _ => 0) (fun _ => 7)).run fuzzSchedule).stores) ∧
    (∀ e ∈ ((SPState.init (fun _ => 0) (fun _ => 7)).run fuzzSchedule).loads,
      e.1 ≠ 0 → e.2 ∈ ((SPState.init (fun _ => 0) (fun _ => 7)).run fuzzSchedule).stores) ∧
    (∀ P : Payload 3 Nat → Prop,
      (∀ v ∈ ((SPState.init (fun _ => 0) (fun _ => 7)).run fuzzSchedule).stores, P v) →
      ∀ e ∈ ((SPState.init (fun _ => 0) (fun _ => 7)).run fuzzSchedule).loads,
        (e.1 ≠ 0 ∨ P (fun _ => 0)) → P e.2)) :=
  ⟨by decide, SPState.snapshot_coherence (fun _ => 0) (fun _ => 7) fuzzSchedule (by decide)⟩

end lock
